import Mathlib

/-!
# Verification of the QEM Zoo catalog rendering pipeline

A shallow embedding of the client-side data pipeline of the QEM Zoo site
(`js/techniques-page.js`, `js/technique.js`, `js/application.js` and the
sibling listing pages): citation indexing, alphabetical sort and
first-letter grouping, the filter/search controller, and the detail-page
resolver.  JavaScript strings are modelled as `List Char`; JavaScript
objects used as insertion-ordered string maps are modelled as association
lists; `fetch` results are modelled as `Except` inputs.
-/

/-- JavaScript strings are sequences of characters. -/
abbrev Str := List Char

/-- A listing-page item record (technique / noise type / application):
the fields the aggregation pipeline reads.  `name` is the display name,
`category` the category tag, `references` the ordered citation keys
(`t.references || []` is modelled by the list being empty). -/
structure Item where
  name : Str
  category : String
  references : List String
deriving DecidableEq

/-- Case-sensitive lexicographic comparison of character sequences
(`≤` on code points position by position). -/
def lexLe : Str → Str → Bool
  | [], _ => true
  | _ :: _, [] => false
  | a :: as, b :: bs => if a < b then true else if b < a then false else lexLe as bs

/-- `s.toUpperCase()`. -/
def upperStr (s : Str) : Str := s.map Char.toUpper

/-- Model of the sort comparator `(a, b) => a.name.localeCompare(b.name)`:
locale-aware comparison is modelled as case-insensitive (primary-strength)
lexicographic comparison of the display names. -/
def nameLe (a b : Item) : Bool := lexLe (upperStr a.name) (upperStr b.name)

theorem lexLe_total : ∀ s t : Str, lexLe s t = true ∨ lexLe t s = true
  | [], _ => Or.inl rfl
  | _ :: _, [] => Or.inr rfl
  | a :: as, b :: bs => by
    rcases lt_trichotomy a b with h | h | h
    · left; simp [lexLe, h]
    · subst h
      rcases lexLe_total as bs with ih | ih
      · left; simp [lexLe, lt_irrefl, ih]
      · right; simp [lexLe, lt_irrefl, ih]
    · right; simp [lexLe, h]

theorem lexLe_trans : ∀ s t u : Str,
    lexLe s t = true → lexLe t u = true → lexLe s u = true
  | [], _, _, _, _ => rfl
  | _ :: _, [], _, h1, _ => by simp [lexLe] at h1
  | _ :: _, _ :: _, [], _, h2 => by simp [lexLe] at h2
  | a :: as, b :: bs, c :: cs, h1, h2 => by
    by_cases hab : a < b
    · by_cases hbc : b < c
      · simp [lexLe, lt_trans hab hbc]
      · have hcb : ¬ c < b := by
          intro hcb
          simp [lexLe, hbc, hcb] at h2
        have hbc' : b = c := le_antisymm (not_lt.mp hcb) (not_lt.mp hbc)
        subst hbc'
        simp [lexLe, hab]
    · have hba : ¬ b < a := by
        intro hba
        simp [lexLe, hab, hba] at h1
      have hab' : a = b := le_antisymm (not_lt.mp hba) (not_lt.mp hab)
      subst hab'
      simp only [lexLe, if_neg (lt_irrefl a)] at h1
      by_cases hbc : a < c
      · simp [lexLe, hbc]
      · have hcb : ¬ c < a := by
          intro hcb
          simp [lexLe, hbc, hcb] at h2
        have hbc' : a = c := le_antisymm (not_lt.mp hcb) (not_lt.mp hbc)
        subst hbc'
        simp only [lexLe, if_neg (lt_irrefl a)] at h2 ⊢
        exact lexLe_trans as bs cs h1 h2

/-- The sort relation on items induced by the comparator. -/
def itemLe (a b : Item) : Prop := nameLe a b = true

instance : DecidableRel itemLe := fun a b => Bool.decEq (nameLe a b) true

instance : IsTotal Item itemLe :=
  ⟨fun a b => lexLe_total (upperStr a.name) (upperStr b.name)⟩

instance : IsTrans Item itemLe :=
  ⟨fun _ _ _ h1 h2 => lexLe_trans _ _ _ h1 h2⟩

/-- `allTechniques.sort((a, b) => a.name.localeCompare(b.name))`, modelled
by a stable sort under the comparator (JavaScript's `Array.prototype.sort`
is stable). -/
def sortItems (items : List Item) : List Item := List.insertionSort itemLe items

/-!
## Citation indexer

Faithful to `techniques-page.js` lines 19-28 (and the identical loops in
`application.js` and the noise/application listing pages):

```
const citationOrder = [];
const citationMap = {};
for (const t of allTechniques) {
  for (const key of t.references || []) {
    if (!(key in citationMap)) {
      citationOrder.push(key);
      citationMap[key] = citationOrder.length;
    }
  }
}
```

The object `citationMap` is an insertion-ordered string map, modelled as
an association list.
-/

/-- One step of the citation loop body: the state is
`(citationOrder, citationMap)`. -/
def citeInsert (st : List String × List (String × Nat)) (key : String) :
    List String × List (String × Nat) :=
  if (st.2.lookup key).isSome then st
  else (st.1 ++ [key], st.2 ++ [(key, st.1.length + 1)])

/-- The nested `for` loops over the item list. -/
def buildCitations (items : List Item) : List String × List (String × Nat) :=
  items.foldl (fun st t => t.references.foldl citeInsert st) ([], [])

/-- All reference keys of the item list, flattened in traversal order. -/
def refKeys (items : List Item) : List String := (items.map Item.references).flatten

theorem buildCitations_eq_flat (items : List Item) :
    buildCitations items = (refKeys items).foldl citeInsert ([], []) := by
  suffices h : ∀ (l : List Item) (st : List String × List (String × Nat)),
      l.foldl (fun st t => t.references.foldl citeInsert st) st
        = ((l.map Item.references).flatten).foldl citeInsert st by
    exact h items ([], [])
  intro l
  induction l with
  | nil => intro st; rfl
  | cons t rest ih =>
    intro st
    simp only [List.foldl_cons, List.map_cons, List.flatten_cons, List.foldl_append]
    exact ih _

/-- The map entries that correspond to an order list, numbering from `n`. -/
def mkMapFrom (n : Nat) : List String → List (String × Nat)
  | [] => []
  | k :: ks => (k, n) :: mkMapFrom (n + 1) ks

theorem mkMapFrom_append (n : Nat) (l : List String) (k : String) :
    mkMapFrom n (l ++ [k]) = mkMapFrom n l ++ [(k, n + l.length)] := by
  induction l generalizing n with
  | nil => simp [mkMapFrom]
  | cons a l ih =>
    show (a, n) :: mkMapFrom (n + 1) (l ++ [k]) = _
    rw [ih]
    have hn : n + (a :: l).length = n + 1 + l.length := by
      simp only [List.length_cons]
      omega
    rw [hn]
    rfl

theorem lookup_mkMapFrom (l : List String) : ∀ (n : Nat) (k : String),
    (mkMapFrom n l).lookup k = if k ∈ l then some (n + l.indexOf k) else none := by
  induction l with
  | nil => intro n k; simp [mkMapFrom]
  | cons a l ih =>
    intro n k
    by_cases hk : k = a
    · subst hk
      simp [mkMapFrom, List.lookup, List.indexOf_cons_self]
    · have hb : (k == a) = false := beq_false_of_ne hk
      simp only [mkMapFrom, List.lookup, hb, ih (n + 1) k, List.mem_cons, hk, false_or,
        List.indexOf_cons_ne _ (Ne.symm hk)]
      by_cases hm : k ∈ l
      · simp only [hm, if_true]
        have : n + 1 + l.indexOf k = n + Nat.succ (l.indexOf k) := by omega
        rw [this]
      · simp [hm]

/-- The pure first-appearance accumulation of a key into the order list. -/
def orderStep (acc : List String) (k : String) : List String :=
  if k ∈ acc then acc else acc ++ [k]

theorem citeFold_inv (ks : List String) :
    ∀ st : List String × List (String × Nat), st.2 = mkMapFrom 1 st.1 →
      (ks.foldl citeInsert st).2 = mkMapFrom 1 (ks.foldl citeInsert st).1
      ∧ (ks.foldl citeInsert st).1 = ks.foldl orderStep st.1 := by
  induction ks with
  | nil => intro st h; exact ⟨h, rfl⟩
  | cons k ks ih =>
    intro st h
    have hlk : (st.2.lookup k).isSome = (if k ∈ st.1 then true else false) := by
      rw [h, lookup_mkMapFrom]
      by_cases hm : k ∈ st.1 <;> simp [hm]
    by_cases hm : k ∈ st.1
    · have h1 : citeInsert st k = st := by
        unfold citeInsert
        rw [hlk]
        simp [hm]
      have h2 : orderStep st.1 k = st.1 := by
        unfold orderStep
        simp [hm]
      simpa [List.foldl_cons, h1, h2] using ih st h
    · have h1 : citeInsert st k = (st.1 ++ [k], st.2 ++ [(k, st.1.length + 1)]) := by
        unfold citeInsert
        rw [hlk]
        simp [hm]
      have h2 : orderStep st.1 k = st.1 ++ [k] := by
        unfold orderStep
        simp [hm]
      have hinv : (st.2 ++ [(k, st.1.length + 1)]) = mkMapFrom 1 (st.1 ++ [k]) := by
        rw [mkMapFrom_append, ← h]
        have : 1 + st.1.length = st.1.length + 1 := Nat.add_comm _ _
        rw [this]
      simp only [List.foldl_cons, h1, h2]
      exact ih _ hinv

theorem orderFold_mem (ks : List String) :
    ∀ (acc : List String) (a : String),
      a ∈ ks.foldl orderStep acc ↔ a ∈ acc ∨ a ∈ ks := by
  induction ks with
  | nil => intro acc a; simp
  | cons k ks ih =>
    intro acc a
    rw [List.foldl_cons]
    by_cases hm : k ∈ acc
    · have hs : orderStep acc k = acc := by
        unfold orderStep
        simp [hm]
      rw [hs, ih]
      constructor
      · rintro (h | h)
        · exact Or.inl h
        · exact Or.inr (List.mem_cons_of_mem _ h)
      · rintro (h | h)
        · exact Or.inl h
        · rcases List.mem_cons.mp h with rfl | h
          · exact Or.inl hm
          · exact Or.inr h
    · have hs : orderStep acc k = acc ++ [k] := by
        unfold orderStep
        simp [hm]
      rw [hs, ih]
      simp only [List.mem_append, List.mem_singleton, List.mem_cons]
      tauto

theorem orderFold_nodup (ks : List String) :
    ∀ acc : List String, acc.Nodup → (ks.foldl orderStep acc).Nodup := by
  induction ks with
  | nil => intro acc h; exact h
  | cons k ks ih =>
    intro acc h
    rw [List.foldl_cons]
    by_cases hm : k ∈ acc
    · have hs : orderStep acc k = acc := by
        unfold orderStep
        simp [hm]
      rw [hs]
      exact ih acc h
    · have hs : orderStep acc k = acc ++ [k] := by
        unfold orderStep
        simp [hm]
      rw [hs]
      refine ih _ ?_
      simp [List.nodup_append, h, hm]

/-- `a`'s first occurrence strictly precedes `b`'s in the flat key list. -/
def firstBefore (ks : List String) (a b : String) : Prop :=
  ks.indexOf a < ks.indexOf b

theorem orderFold_pairwise (ks0 ks : List String) :
    ∀ (pre acc : List String), ks0 = pre ++ ks →
      (∀ a, a ∈ acc ↔ a ∈ pre) →
      acc.Pairwise (firstBefore ks0) →
      (ks.foldl orderStep acc).Pairwise (firstBefore ks0) := by
  induction ks with
  | nil => intro pre acc _ _ hp; exact hp
  | cons k ks ih =>
    intro pre acc heq hmem hp
    rw [List.foldl_cons]
    by_cases hm : k ∈ acc
    · have hs : orderStep acc k = acc := by
        unfold orderStep
        simp [hm]
      rw [hs]
      refine ih (pre ++ [k]) acc ?_ ?_ hp
      · rw [heq, List.append_assoc]
        rfl
      · intro a
        rw [hmem a]
        constructor
        · intro h
          exact List.mem_append_left _ h
        · intro h
          rcases List.mem_append.mp h with h | h
          · exact h
          · rw [List.mem_singleton] at h
            subst h
            exact (hmem a).mp hm
    · have hs : orderStep acc k = acc ++ [k] := by
        unfold orderStep
        simp [hm]
      rw [hs]
      have hkpre : k ∉ pre := fun h => hm ((hmem k).mpr h)
      refine ih (pre ++ [k]) (acc ++ [k]) ?_ ?_ ?_
      · rw [heq, List.append_assoc]
        rfl
      · intro a
        simp only [List.mem_append, List.mem_singleton, hmem a]
      · rw [List.pairwise_append]
        refine ⟨hp, List.pairwise_singleton _ _, ?_⟩
        intro a ha b hb
        have hb' : b = k := List.mem_singleton.mp hb
        rw [hb']
        have hapre : a ∈ pre := (hmem a).mp ha
        have h1 : ks0.indexOf a < pre.length := by
          rw [heq, List.indexOf_append_of_mem hapre]
          exact List.indexOf_lt_length.mpr hapre
        have h2 : pre.length ≤ ks0.indexOf k := by
          rw [heq, List.indexOf_append_of_not_mem hkpre]
          exact Nat.le_add_right _ _
        exact lt_of_lt_of_le h1 h2

/-- The `citationOrder` array produced for an item list. -/
def citationOrder (items : List Item) : List String := (buildCitations items).1

/-- The `citationMap` object produced for an item list. -/
def citationMap (items : List Item) : List (String × Nat) := (buildCitations items).2

theorem citationOrder_eq (items : List Item) :
    citationOrder items = (refKeys items).foldl orderStep [] := by
  have h := citeFold_inv (refKeys items) ([], []) rfl
  show (buildCitations items).1 = _
  rw [buildCitations_eq_flat]
  exact h.2

theorem citationMap_eq (items : List Item) :
    citationMap items = mkMapFrom 1 (citationOrder items) := by
  have h := citeFold_inv (refKeys items) ([], []) rfl
  show (buildCitations items).2 = mkMapFrom 1 (buildCitations items).1
  rw [buildCitations_eq_flat]
  exact h.1

/-- C1: for every ordered item list, the citation indexer produces the list
of distinct reference keys in order of first appearance, and a map sending
each such key to its 1-based position in that list; the assigned numbers
are exactly `1..K` for `K` the number of distinct keys. -/
theorem citation_indexer_spec (items : List Item) :
    (citationOrder items).Nodup
    ∧ (∀ k, k ∈ citationOrder items ↔ k ∈ refKeys items)
    ∧ (citationOrder items).Pairwise (firstBefore (refKeys items))
    ∧ (∀ k, k ∈ citationOrder items →
        (citationMap items).lookup k = some ((citationOrder items).indexOf k + 1))
    ∧ (∀ k n, (citationMap items).lookup k = some n →
        1 ≤ n ∧ n ≤ (citationOrder items).length)
    ∧ (∀ n, 1 ≤ n → n ≤ (citationOrder items).length →
        ∃ k, k ∈ citationOrder items ∧ (citationMap items).lookup k = some n) := by
  have hnd : (citationOrder items).Nodup := by
    rw [citationOrder_eq]
    exact orderFold_nodup _ _ List.nodup_nil
  have hmem : ∀ k, k ∈ citationOrder items ↔ k ∈ refKeys items := by
    intro k
    rw [citationOrder_eq, orderFold_mem]
    simp
  have hlk : ∀ k, (citationMap items).lookup k
      = if k ∈ citationOrder items then some (1 + (citationOrder items).indexOf k)
        else none := by
    intro k
    rw [citationMap_eq, lookup_mkMapFrom]
  refine ⟨hnd, hmem, ?_, ?_, ?_, ?_⟩
  · rw [citationOrder_eq]
    refine orderFold_pairwise _ _ [] [] rfl (by simp) List.Pairwise.nil
  · intro k hk
    rw [hlk, if_pos hk, Nat.add_comm]
  · intro k n h
    rw [hlk k] at h
    by_cases hk : k ∈ citationOrder items
    · rw [if_pos hk] at h
      have h' : 1 + (citationOrder items).indexOf k = n := by
        exact Option.some.inj h
      have hlt : (citationOrder items).indexOf k < (citationOrder items).length :=
        List.indexOf_lt_length.mpr hk
      omega
    · rw [if_neg hk] at h
      exact absurd h (by simp)
  · intro n h1 h2
    have hlt : n - 1 < (citationOrder items).length := by omega
    refine ⟨(citationOrder items).get ⟨n - 1, hlt⟩, List.get_mem _ _ _, ?_⟩
    have hkmem : (citationOrder items).get ⟨n - 1, hlt⟩ ∈ citationOrder items :=
      List.get_mem _ _ _
    rw [hlk, if_pos hkmem]
    have hidx : (citationOrder items).indexOf ((citationOrder items).get ⟨n - 1, hlt⟩)
        = n - 1 := by
      have hlt2 : (citationOrder items).indexOf
          ((citationOrder items).get ⟨n - 1, hlt⟩) < (citationOrder items).length :=
        List.indexOf_lt_length.mpr hkmem
      have hfin : (⟨(citationOrder items).indexOf ((citationOrder items).get ⟨n - 1, hlt⟩),
          hlt2⟩ : Fin (citationOrder items).length) = ⟨n - 1, hlt⟩ := by
        apply hnd.get_inj_iff.mp
        exact List.indexOf_get hlt2
      exact congrArg Fin.val hfin
    rw [hidx]
    have : 1 + (n - 1) = n := by omega
    rw [this]

/-- C9: the citation indexer is deterministic — equal ordered inputs give
identical first-appearance orders and key-to-number maps. -/
theorem citation_indexer_deterministic (items1 items2 : List Item)
    (h : items1 = items2) :
    citationOrder items1 = citationOrder items2
    ∧ citationMap items1 = citationMap items2 := by
  subst h
  exact ⟨rfl, rfl⟩

/-!
## Grouping/sort engine

Faithful to `techniques-page.js` lines 54-60 (and the identical loops on
the noise/application listing pages):

```
const grouped = {};
for (const t of allTechniques) {
  const letter = t.name[0].toUpperCase();
  if (!grouped[letter]) grouped[letter] = [];
  grouped[letter].push(t);
}
```

`grouped` is an insertion-ordered object keyed by characters, modelled as
an association list.  `t.name[0]` is `undefined` when the name is empty,
and `.toUpperCase()` on `undefined` throws: the letter computation is
therefore partial, modelled with `Option`.
-/

/-- `t.name[0].toUpperCase()` — `none` models the thrown `TypeError` on an
empty display name. -/
def letterKeyOpt (t : Item) : Option Char := t.name.head?.map Char.toUpper

/-- Total letter key, agreeing with `letterKeyOpt` on non-empty names. -/
def letterKeyD (t : Item) : Char := Char.toUpper (t.name.headD 'A')

/-- `if (!grouped[letter]) grouped[letter] = []; grouped[letter].push(t)`:
append `t` to the group keyed `l`, creating the group at the end of the
insertion order if it does not exist yet. -/
def addToGroup : List (Char × List Item) → Char → Item → List (Char × List Item)
  | [], l, t => [(l, [t])]
  | (k, g) :: rest, l, t =>
    if k = l then (k, g ++ [t]) :: rest else (k, g) :: addToGroup rest l t

/-- The grouping loop with its partial letter computation; `none` models
the loop throwing on the first empty-named item. -/
def groupedOptAux (m : List (Char × List Item)) : List Item → Option (List (Char × List Item))
  | [] => some m
  | t :: rest =>
    match letterKeyOpt t with
    | none => none
    | some l => groupedOptAux (addToGroup m l t) rest

/-- The `grouped` object, if the loop completes without throwing. -/
def groupedOpt (items : List Item) : Option (List (Char × List Item)) :=
  groupedOptAux [] items

/-- Total variant of the grouping loop, used under the precondition that
every display name is non-empty. -/
def groupListAux (m : List (Char × List Item)) : List Item → List (Char × List Item)
  | [] => m
  | t :: rest => groupListAux (addToGroup m (letterKeyD t) t) rest

/-- Total variant of `groupedOpt`. -/
def groupList (items : List Item) : List (Char × List Item) := groupListAux [] items

theorem letterKeyOpt_of_ne_nil {t : Item} (h : t.name ≠ []) :
    letterKeyOpt t = some (letterKeyD t) := by
  unfold letterKeyOpt letterKeyD
  cases hn : t.name with
  | nil => exact absurd hn h
  | cons c cs => simp [List.head?, List.headD, hn]

theorem groupedOptAux_eq_total (items : List Item) :
    ∀ m : List (Char × List Item), (∀ t ∈ items, t.name ≠ []) →
      groupedOptAux m items = some (groupListAux m items) := by
  induction items with
  | nil => intro m _; rfl
  | cons t rest ih =>
    intro m h
    have ht : t.name ≠ [] := h t (List.mem_cons_self _ _)
    show (match letterKeyOpt t with
      | none => none
      | some l => groupedOptAux (addToGroup m l t) rest) = _
    rw [letterKeyOpt_of_ne_nil ht]
    exact ih _ fun u hu => h u (List.mem_cons_of_mem _ hu)

theorem groupedOptAux_eq_none (items : List Item) :
    ∀ m : List (Char × List Item), (∃ t ∈ items, t.name = []) →
      groupedOptAux m items = none := by
  induction items with
  | nil =>
    intro m h
    rcases h with ⟨t, ht, _⟩
    exact absurd ht (List.not_mem_nil t)
  | cons t rest ih =>
    intro m h
    show (match letterKeyOpt t with
      | none => none
      | some l => groupedOptAux (addToGroup m l t) rest) = _
    by_cases ht : t.name = []
    · have : letterKeyOpt t = none := by
        unfold letterKeyOpt
        rw [ht]
        rfl
      rw [this]
    · rw [letterKeyOpt_of_ne_nil ht]
      rcases h with ⟨u, hu, hun⟩
      rcases List.mem_cons.mp hu with rfl | hu'
      · exact absurd hun ht
      · exact ih _ ⟨u, hu', hun⟩

/-- C10: the grouping loop is total exactly when every display name is a
non-empty string; the undefined-access branch is unreachable under that
precondition. -/
theorem grouping_total_iff (items : List Item) :
    (groupedOpt items).isSome = true ↔ ∀ t ∈ items, t.name ≠ [] := by
  constructor
  · intro h
    by_contra hc
    push_neg at hc
    rcases hc with ⟨t, ht, htn⟩
    have : groupedOpt items = none := groupedOptAux_eq_none items [] ⟨t, ht, htn⟩
    rw [this] at h
    simp at h
  · intro h
    have : groupedOpt items = some (groupList items) :=
      groupedOptAux_eq_total items [] h
    rw [this]
    rfl

theorem addToGroup_not_mem {m : List (Char × List Item)} {k : Char} (t : Item)
    (h : k ∉ m.map Prod.fst) : addToGroup m k t = m ++ [(k, [t])] := by
  induction m with
  | nil => rfl
  | cons p rest ih =>
    obtain ⟨k', g⟩ := p
    have hk' : k' ≠ k := by
      intro he
      exact h (by simp [he])
    show (if k' = k then (k', g ++ [t]) :: rest else (k', g) :: addToGroup rest k t) = _
    rw [if_neg hk', ih (fun hm => h (by simp [List.map_cons, hm]))]
    rfl

theorem mem_fst_decomp {m : List (Char × List Item)} {k : Char}
    (h : k ∈ m.map Prod.fst) :
    ∃ m₁ g m₂, m = m₁ ++ (k, g) :: m₂ ∧ k ∉ m₁.map Prod.fst := by
  induction m with
  | nil => simp at h
  | cons p rest ih =>
    obtain ⟨k', g'⟩ := p
    by_cases hk : k' = k
    · subst hk
      exact ⟨[], g', rest, rfl, by simp⟩
    · have h' : k ∈ rest.map Prod.fst := by
        rcases List.mem_cons.mp h with he | h'
        · exact absurd he.symm hk
        · exact h'
      rcases ih h' with ⟨m₁, g, m₂, hm, hnm⟩
      refine ⟨(k', g') :: m₁, g, m₂, by rw [hm]; rfl, ?_⟩
      simp only [List.map_cons, List.mem_cons]
      rintro (he | hm1)
      · exact hk he.symm
      · exact hnm hm1

theorem addToGroup_first {m₁ m₂ : List (Char × List Item)} {k : Char}
    (g : List Item) (t : Item) (h : k ∉ m₁.map Prod.fst) :
    addToGroup (m₁ ++ (k, g) :: m₂) k t = m₁ ++ (k, g ++ [t]) :: m₂ := by
  induction m₁ with
  | nil =>
    show (if k = k then (k, g ++ [t]) :: m₂ else _) = _
    rw [if_pos rfl]
    rfl
  | cons p rest ih =>
    obtain ⟨k', g'⟩ := p
    have hk' : k' ≠ k := by
      intro he
      exact h (by simp [he])
    show (if k' = k then _ else (k', g') :: addToGroup (rest ++ (k, g) :: m₂) k t) = _
    rw [if_neg hk', ih (fun hm => h (by simp [List.map_cons, hm]))]
    rfl

/-- Invariant of the grouping loop over a letter-sorted item list: keys stay
strictly increasing, the concatenation of the groups extends by exactly the
processed items, and every group member carries the group's key. -/
theorem groupListAux_inv (items : List Item) :
    ∀ m : List (Char × List Item),
      ((m.map Prod.fst).Pairwise (· < ·)) →
      ((items.map letterKeyD).Pairwise (· ≤ ·)) →
      (∀ k ∈ m.map Prod.fst, ∀ t ∈ items, k ≤ letterKeyD t) →
      (∀ p ∈ m, ∀ t ∈ p.2, letterKeyD t = p.1) →
      (((groupListAux m items).map Prod.fst).Pairwise (· < ·))
      ∧ ((groupListAux m items).map Prod.snd).flatten
          = (m.map Prod.snd).flatten ++ items
      ∧ (∀ p ∈ groupListAux m items, ∀ t ∈ p.2, letterKeyD t = p.1) := by
  induction items with
  | nil =>
    intro m h1 _ _ h4
    exact ⟨h1, by simp [groupListAux], h4⟩
  | cons t rest ih =>
    intro m h1 h2 h3 h4
    have h2' : (rest.map letterKeyD).Pairwise (· ≤ ·) :=
      (List.pairwise_cons.mp h2).2
    have hhead : ∀ u ∈ rest, letterKeyD t ≤ letterKeyD u := by
      intro u hu
      exact (List.pairwise_cons.mp h2).1 _ (List.mem_map_of_mem _ hu)
    show ((groupListAux (addToGroup m (letterKeyD t) t) rest).map Prod.fst).Pairwise (· < ·)
      ∧ ((groupListAux (addToGroup m (letterKeyD t) t) rest).map Prod.snd).flatten
          = (m.map Prod.snd).flatten ++ t :: rest
      ∧ (∀ p ∈ groupListAux (addToGroup m (letterKeyD t) t) rest, ∀ u ∈ p.2,
          letterKeyD u = p.1)
    by_cases hmem : letterKeyD t ∈ m.map Prod.fst
    · -- the letter already has a group; it must be the last one
      rcases mem_fst_decomp hmem with ⟨m₁, g, m₂, hm, hnm₁⟩
      have hm₂ : m₂ = [] := by
        cases hm₂ : m₂ with
        | nil => rfl
        | cons q m₂' =>
          exfalso
          subst hm
          rw [hm₂] at h1 h3
          have hlt : letterKeyD t < q.1 := by
            have hpw := (List.pairwise_append.mp (by simpa using h1)).2.1
            exact (List.pairwise_cons.mp hpw).1 q.1 (by simp)
          have hle : q.1 ≤ letterKeyD t := by
            refine h3 q.1 ?_ t (List.mem_cons_self _ _)
            simp
          exact absurd hlt (not_lt.mpr hle)
      subst hm₂
      subst hm
      rw [addToGroup_first g t hnm₁]
      have hfst : ((m₁ ++ [(letterKeyD t, g ++ [t])]).map Prod.fst)
          = ((m₁ ++ [(letterKeyD t, g)]).map Prod.fst) := by
        simp
      rcases ih (m₁ ++ [(letterKeyD t, g ++ [t])])
          (by rw [hfst]; exact h1) h2'
          (by
            intro k hk u hu
            rw [hfst] at hk
            exact le_trans (h3 k hk t (List.mem_cons_self _ _)) (hhead u hu))
          (by
            intro p hp u hu
            rcases List.mem_append.mp hp with hp1 | hp2
            · exact h4 p (List.mem_append_left _ hp1) u hu
            · rw [List.mem_singleton] at hp2
              subst hp2
              rcases List.mem_append.mp hu with hg | hg
              · exact h4 (letterKeyD t, g) (by simp) u hg
              · rw [List.mem_singleton] at hg
                subst hg
                rfl)
          with ⟨c1, c2, c3⟩
      refine ⟨c1, ?_, c3⟩
      rw [c2]
      simp
    · -- fresh letter: a new group is appended at the end
      rw [addToGroup_not_mem t hmem]
      have hfst : ((m ++ [(letterKeyD t, [t])]).map Prod.fst)
          = m.map Prod.fst ++ [letterKeyD t] := by
        simp
      rcases ih (m ++ [(letterKeyD t, [t])])
          (by
            rw [hfst, List.pairwise_append]
            refine ⟨h1, List.pairwise_singleton _ _, ?_⟩
            intro k hk b hb
            rw [List.mem_singleton] at hb
            subst hb
            have hle := h3 k hk t (List.mem_cons_self _ _)
            have hne : k ≠ letterKeyD t := fun he => hmem (he ▸ hk)
            exact lt_of_le_of_ne hle hne)
          h2'
          (by
            intro k hk u hu
            rw [hfst] at hk
            rcases List.mem_append.mp hk with hk1 | hk2
            · exact le_trans (h3 k hk1 t (List.mem_cons_self _ _)) (hhead u hu)
            · rw [List.mem_singleton] at hk2
              subst hk2
              exact hhead u hu)
          (by
            intro p hp u hu
            rcases List.mem_append.mp hp with hp1 | hp2
            · exact h4 p hp1 u hu
            · rw [List.mem_singleton] at hp2
              subst hp2
              rw [List.mem_singleton] at hu
              subst hu
              rfl)
          with ⟨c1, c2, c3⟩
      refine ⟨c1, ?_, c3⟩
      rw [c2]
      simp

theorem lexLe_head {x y : Char} {xs ys : Str}
    (h : lexLe (x :: xs) (y :: ys) = true) : x ≤ y := by
  by_cases hxy : x < y
  · exact le_of_lt hxy
  · by_cases hyx : y < x
    · simp [lexLe, hxy, hyx] at h
    · exact not_lt.mp hyx

theorem letterKeyD_mono {a b : Item} (h : itemLe a b)
    (ha : a.name ≠ []) (hb : b.name ≠ []) : letterKeyD a ≤ letterKeyD b := by
  unfold itemLe nameLe upperStr at h
  cases han : a.name with
  | nil => exact absurd han ha
  | cons x xs =>
    cases hbn : b.name with
    | nil => exact absurd hbn hb
    | cons y ys =>
      rw [han, hbn] at h
      simp only [List.map_cons] at h
      have := lexLe_head h
      unfold letterKeyD
      rw [han, hbn]
      exact this

theorem sorted_letters (items : List Item) (hne : ∀ t ∈ items, t.name ≠ []) :
    ((sortItems items).map letterKeyD).Pairwise (· ≤ ·) := by
  have hs : (sortItems items).Pairwise itemLe :=
    List.sorted_insertionSort itemLe items
  have hne' : ∀ t ∈ sortItems items, t.name ≠ [] := by
    intro t ht
    have ht' : t ∈ items := by
      have h0 : t ∈ List.insertionSort itemLe items := ht
      rwa [List.mem_insertionSort] at h0
    exact hne t ht'
  rw [List.pairwise_map]
  exact hs.imp_of_mem fun ha hb hr => letterKeyD_mono hr (hne' _ ha) (hne' _ hb)

theorem pair_eq_of_fst_eq :
    ∀ (g : List (Char × List Item)), (g.map Prod.fst).Nodup →
      ∀ p ∈ g, ∀ q ∈ g, p.1 = q.1 → p = q := by
  intro g
  induction g with
  | nil =>
    intro _ p hp
    exact absurd hp (List.not_mem_nil p)
  | cons r rest ih =>
    intro hnd p hp q hq hfst
    have hr : r.1 ∉ rest.map Prod.fst := (List.nodup_cons.mp (by simpa using hnd)).1
    rcases List.mem_cons.mp hp with rfl | hp' <;> rcases List.mem_cons.mp hq with rfl | hq'
    · rfl
    · exact absurd (hfst ▸ List.mem_map_of_mem Prod.fst hq') hr
    · exact absurd (hfst ▸ List.mem_map_of_mem Prod.fst hp') hr
    · exact ih (List.nodup_cons.mp (by simpa using hnd)).2 p hp' q hq' hfst

theorem map_lookup_eq_snd :
    ∀ g : List (Char × List Item), (g.map Prod.fst).Nodup →
      (g.map Prod.fst).map (fun k => ((g.lookup k).getD [])) = g.map Prod.snd := by
  intro g
  induction g with
  | nil => intro _; rfl
  | cons r rest ih =>
    intro hnd
    obtain ⟨k, grp⟩ := r
    have hk : k ∉ rest.map Prod.fst := (List.nodup_cons.mp (by simpa using hnd)).1
    simp only [List.map_cons]
    have hhead : (((k, grp) :: rest).lookup k).getD [] = grp := by
      simp [List.lookup]
    rw [hhead]
    congr 1
    have hcongr : ∀ k' ∈ rest.map Prod.fst,
        ((((k, grp) :: rest).lookup k').getD []) = ((rest.lookup k').getD []) := by
      intro k' hk'
      have hne : k' ≠ k := fun he => hk (he ▸ hk')
      simp [List.lookup, beq_false_of_ne hne]
    rw [List.map_congr_left hcongr]
    exact ih (List.nodup_cons.mp (by simpa using hnd)).2

/-- `Object.keys(grouped).sort()`: JavaScript's default sort on the letter
keys is ascending code-unit order. -/
def sortLetters (ls : List Char) : List Char := List.insertionSort (· ≤ ·) ls

/-- Rendering order of the cards: for each letter in ascending key order,
the cards of `grouped[letter]`, concatenated. -/
def renderConcat (g : List (Char × List Item)) : List Item :=
  ((sortLetters (g.map Prod.fst)).map (fun k => ((g.lookup k).getD []))).flatten

/-- C2: on an item list with non-empty display names, sorting then grouping
partitions the sorted items by uppercased first letter: group keys are
strictly ascending and distinct, every group member carries the group's
key, each item lies in exactly one group, the groups concatenate back to
the full sorted list, and rendering the groups in ascending key order
reproduces the sorted order. -/
theorem grouping_partition (items : List Item) (hne : ∀ t ∈ items, t.name ≠ []) :
    groupedOpt (sortItems items) = some (groupList (sortItems items))
    ∧ ((groupList (sortItems items)).map Prod.fst).Pairwise (· < ·)
    ∧ (∀ p ∈ groupList (sortItems items), ∀ t ∈ p.2, letterKeyD t = p.1)
    ∧ ((groupList (sortItems items)).map Prod.snd).flatten = sortItems items
    ∧ (∀ t ∈ sortItems items, ∃ p, p ∈ groupList (sortItems items) ∧ t ∈ p.2
        ∧ ∀ q ∈ groupList (sortItems items), t ∈ q.2 → q = p)
    ∧ renderConcat (groupList (sortItems items)) = sortItems items := by
  have hne' : ∀ t ∈ sortItems items, t.name ≠ [] := by
    intro t ht
    have ht' : t ∈ items := by
      have h0 : t ∈ List.insertionSort itemLe items := ht
      rwa [List.mem_insertionSort] at h0
    exact hne t ht'
  have hinv := groupListAux_inv (sortItems items) []
    List.Pairwise.nil (sorted_letters items hne) (by simp) (by simp)
  obtain ⟨c1, c2, c3⟩ := hinv
  have c2' : ((groupList (sortItems items)).map Prod.snd).flatten = sortItems items := by
    simpa [groupList] using c2
  have hnd : ((groupList (sortItems items)).map Prod.fst).Nodup :=
    c1.imp ne_of_lt
  refine ⟨groupedOptAux_eq_total _ [] hne', c1, c3, c2', ?_, ?_⟩
  · intro t ht
    have ht2 : t ∈ ((groupList (sortItems items)).map Prod.snd).flatten := by
      rw [c2']
      exact ht
    rcases List.mem_flatten.mp ht2 with ⟨grp, hgrp, htg⟩
    rcases List.mem_map.mp hgrp with ⟨p, hp, hps⟩
    refine ⟨p, hp, hps ▸ htg, ?_⟩
    intro q hq htq
    refine pair_eq_of_fst_eq _ hnd q hq p hp ?_
    rw [← c3 q hq t htq, ← c3 p hp t (hps ▸ htg)]
  · unfold renderConcat
    have hsorted : ((groupList (sortItems items)).map Prod.fst).Pairwise (· ≤ ·) :=
      c1.imp le_of_lt
    have hfix : sortLetters ((groupList (sortItems items)).map Prod.fst)
        = (groupList (sortItems items)).map Prod.fst :=
      List.Sorted.insertionSort_eq hsorted
    rw [hfix, map_lookup_eq_snd _ hnd, c2']

/-!
## Filter/search controller

Faithful to `applyFilters` in `techniques-page.js` lines 141-176 (identical
on the other listing pages).  A card's state is its `data-category`
attribute and its rendered text content; the card pass computes

```
const query = searchInput.value.toLowerCase().trim();
const matchCategory = activeCategory === "all" || card.dataset.category === activeCategory;
const matchSearch = !query || card.textContent.toLowerCase().includes(query);
const show = matchCategory && matchSearch;
card.style.display = show ? "" : "none";
if (show) visible++;
```
-/

/-- A rendered card: its `data-category` attribute and full text content. -/
structure Card where
  category : String
  text : Str
deriving DecidableEq

/-- `s.toLowerCase()`. -/
def lowerStr (s : Str) : Str := s.map Char.toLower

/-- JavaScript `trim` whitespace (the common cases). -/
def isWsChar (c : Char) : Bool := c == ' ' || c == '\t' || c == '\n' || c == '\r'

/-- `s.trim()`. -/
def trimStr (s : Str) : Str :=
  ((s.dropWhile isWsChar).reverse.dropWhile isWsChar).reverse

/-- `searchInput.value.toLowerCase().trim()`. -/
def normQuery (raw : Str) : Str := trimStr (lowerStr raw)

/-- `pat` is a leading segment of `l`. -/
def leadsWith : Str → Str → Bool
  | [], _ => true
  | _ :: _, [] => false
  | p :: ps, x :: xs => p == x && leadsWith ps xs

/-- `hay.includes(pat)`. -/
def hasSub : Str → Str → Bool
  | [], pat => pat.isEmpty
  | x :: tl, pat => leadsWith pat (x :: tl) || hasSub tl pat

/-- The visibility predicate of one card under the current filter state. -/
def cardShow (ac : String) (q : Str) (c : Card) : Bool :=
  (ac == "all" || c.category == ac) && (q.isEmpty || hasSub (lowerStr c.text) q)

/-- One iteration of the card pass: extends the per-card display list and
bumps the visible counter. -/
def filterStep (ac : String) (q : Str) (st : List Bool × Nat) (c : Card) :
    List Bool × Nat :=
  (st.1 ++ [cardShow ac q c], if cardShow ac q c then st.2 + 1 else st.2)

/-- The card pass of `applyFilters`: per-card display flags (`true` = shown)
and the `visible` counter. -/
def applyFiltersCards (ac : String) (raw : Str) (cards : List Card) :
    List Bool × Nat :=
  cards.foldl (filterStep ac (normQuery raw)) ([], 0)

/-- `noResults.style.display = visible === 0 ? "block" : "none"`. -/
def noResultsShown (visible : Nat) : Bool := visible == 0

theorem leadsWith_iff : ∀ p l : Str, leadsWith p l = true ↔ ∃ t, l = p ++ t := by
  intro p
  induction p with
  | nil =>
    intro l
    simp [leadsWith]
  | cons c ps ih =>
    intro l
    cases l with
    | nil => simp [leadsWith]
    | cons x xs =>
      show (c == x && leadsWith ps xs) = true ↔ _
      rw [Bool.and_eq_true, beq_iff_eq, ih xs]
      constructor
      · rintro ⟨rfl, t, rfl⟩
        exact ⟨t, rfl⟩
      · rintro ⟨t, ht⟩
        injection ht with h1 h2
        exact ⟨h1.symm, t, h2⟩

theorem hasSub_iff : ∀ hay pat : Str,
    hasSub hay pat = true ↔ ∃ l r, hay = l ++ pat ++ r := by
  intro hay
  induction hay with
  | nil =>
    intro pat
    show pat.isEmpty = true ↔ _
    rw [List.isEmpty_iff]
    constructor
    · rintro rfl
      exact ⟨[], [], rfl⟩
    · rintro ⟨l, r, h⟩
      rcases List.append_eq_nil.mp h.symm with ⟨h1, h2⟩
      exact (List.append_eq_nil.mp h1).2
  | cons x tl ih =>
    intro pat
    show (leadsWith pat (x :: tl) || hasSub tl pat) = true ↔ _
    rw [Bool.or_eq_true, leadsWith_iff, ih]
    constructor
    · rintro (⟨t, ht⟩ | ⟨l, r, hr⟩)
      · exact ⟨[], t, by simpa using ht⟩
      · exact ⟨x :: l, r, by rw [hr]; rfl⟩
    · rintro ⟨l, r, hr⟩
      cases l with
      | nil =>
        left
        exact ⟨r, by simpa using hr⟩
      | cons y l' =>
        right
        injection hr with h1 h2
        exact ⟨l', r, h2⟩

theorem filterFold_eq (ac : String) (q : Str) :
    ∀ (cards : List Card) (fl : List Bool) (n : Nat),
      cards.foldl (filterStep ac q) (fl, n)
        = (fl ++ cards.map (cardShow ac q),
           n + cards.countP (fun c => cardShow ac q c)) := by
  intro cards
  induction cards with
  | nil =>
    intro fl n
    simp
  | cons c rest ih =>
    intro fl n
    rw [List.foldl_cons]
    show List.foldl (filterStep ac q)
      (fl ++ [cardShow ac q c], if cardShow ac q c then n + 1 else n) rest = _
    rw [ih, Prod.mk.injEq]
    constructor
    · rw [List.append_assoc]
      rfl
    · rw [List.countP_cons]
      by_cases h : cardShow ac q c
      · simp only [h, if_pos, if_true]
        omega
      · have hb : cardShow ac q c = false := Bool.of_not_eq_true h
        simp only [hb, if_false, Bool.false_eq_true, decide_False]
        omega

/-- C3: after the card pass, a card is shown iff its category matches
(or "all" is active) and the lowercased trimmed query is empty or occurs
as a substring of the lowercased card text; the visible counter equals
the number of cards satisfying that predicate. -/
theorem filter_controller_spec (ac : String) (raw : Str) (cards : List Card) :
    (applyFiltersCards ac raw cards).1 = cards.map (cardShow ac (normQuery raw))
    ∧ (applyFiltersCards ac raw cards).2
        = (cards.filter (fun c => cardShow ac (normQuery raw) c)).length
    ∧ (∀ c ∈ cards, cardShow ac (normQuery raw) c = true ↔
        ((ac = "all" ∨ c.category = ac)
          ∧ (normQuery raw = []
              ∨ ∃ l r, lowerStr c.text = l ++ normQuery raw ++ r))) := by
  have hfold := filterFold_eq ac (normQuery raw) cards [] 0
  refine ⟨?_, ?_, ?_⟩
  · show (cards.foldl (filterStep ac (normQuery raw)) ([], 0)).1 = _
    rw [hfold]
    simp
  · show (cards.foldl (filterStep ac (normQuery raw)) ([], 0)).2 = _
    rw [hfold]
    simp [List.countP_eq_length_filter]
  · intro c _
    unfold cardShow
    rw [Bool.and_eq_true, Bool.or_eq_true, Bool.or_eq_true, beq_iff_eq, beq_iff_eq,
      List.isEmpty_iff, hasSub_iff]

/-!
## Letter-heading and alphabet-nav passes of `applyFilters`

The listing pages render, for each letter group in order, an `h2.letter-heading`
followed by the group's `div.technique` cards (`techniques-page.js` lines
73-116).  `applyFilters` then walks each heading's following siblings up to
the next heading, looking for a visible card (lines 155-167), and toggles
the `disabled` class of each alphabet-nav link by looking up its target
heading (lines 169-173).
-/

/-- A child node of the cards container after the card pass: a letter
heading, or a card together with its display state (`true` = shown). -/
inductive PageNode where
  | heading (letter : Char)
  | card (c : Card) (shown : Bool)
deriving DecidableEq

/-- The container's children for a grouped page, with each card's display
set by the card pass. -/
def renderFlat (ac : String) (q : Str) (page : List (Char × List Card)) :
    List PageNode :=
  (page.map (fun p =>
    PageNode.heading p.1 :: p.2.map (fun c => PageNode.card c (cardShow ac q c)))).flatten

/-- The sibling walk from just after a heading: scan until the next
heading, reporting whether a shown card occurs. -/
def walkHasVisible : List PageNode → Bool
  | [] => false
  | PageNode.heading _ :: _ => false
  | PageNode.card _ vis :: rest => vis || walkHasVisible rest

/-- The heading pass: each heading's letter with its resulting visibility. -/
def headingStates : List PageNode → List (Char × Bool)
  | [] => []
  | PageNode.heading l :: rest => (l, walkHasVisible rest) :: headingStates rest
  | PageNode.card _ _ :: rest => headingStates rest

/-- The nav pass for one link: `disabled` is set iff the link's target
heading exists and is hidden. -/
def navDisabled (hs : List (Char × Bool)) (l : Char) : Bool :=
  match hs.lookup l with
  | some v => !v
  | none => false

theorem walkHasVisible_cards (cs : List Card) (f : Card → Bool) :
    ∀ tail : List PageNode,
      walkHasVisible (cs.map (fun c => PageNode.card c (f c)) ++ tail)
        = (cs.any f || walkHasVisible tail) := by
  induction cs with
  | nil => intro tail; simp
  | cons c rest ih =>
    intro tail
    show (f c || walkHasVisible (rest.map (fun c => PageNode.card c (f c)) ++ tail)) = _
    rw [ih tail, List.any_cons]
    rw [Bool.or_assoc]

theorem walkHasVisible_flat (ac : String) (q : Str) :
    ∀ page : List (Char × List Card), walkHasVisible (renderFlat ac q page) = false := by
  intro page
  cases page with
  | nil => rfl
  | cons p rest => rfl

theorem headingStates_cards (cs : List Card) (f : Card → Bool) :
    ∀ tail : List PageNode,
      headingStates (cs.map (fun c => PageNode.card c (f c)) ++ tail)
        = headingStates tail := by
  induction cs with
  | nil => intro tail; rfl
  | cons c rest ih => intro tail; exact ih tail

theorem headingStates_renderFlat (ac : String) (q : Str) :
    ∀ page : List (Char × List Card),
      headingStates (renderFlat ac q page)
        = page.map (fun p => (p.1, p.2.any (cardShow ac q))) := by
  intro page
  induction page with
  | nil => rfl
  | cons p rest ih =>
    obtain ⟨l, cs⟩ := p
    show headingStates (PageNode.heading l ::
      (cs.map (fun c => PageNode.card c (cardShow ac q c)) ++ renderFlat ac q rest)) = _
    show (l, walkHasVisible
        (cs.map (fun c => PageNode.card c (cardShow ac q c)) ++ renderFlat ac q rest)) ::
      headingStates
        (cs.map (fun c => PageNode.card c (cardShow ac q c)) ++ renderFlat ac q rest) = _
    rw [walkHasVisible_cards, walkHasVisible_flat, headingStates_cards, ih]
    rw [Bool.or_false]
    rfl

theorem lookup_map_pairs (f : Char × List Card → Bool) :
    ∀ (page : List (Char × List Card)) (p : Char × List Card),
      (page.map Prod.fst).Nodup → p ∈ page →
      (page.map (fun p => (p.1, f p))).lookup p.1 = some (f p) := by
  intro page
  induction page with
  | nil =>
    intro p _ hp
    exact absurd hp (List.not_mem_nil p)
  | cons r rest ih =>
    intro p hnd hp
    have hr : r.1 ∉ rest.map Prod.fst := (List.nodup_cons.mp (by simpa using hnd)).1
    rcases List.mem_cons.mp hp with rfl | hp'
    · show (((p.1, f p) :: rest.map (fun p => (p.1, f p))).lookup p.1) = _
      simp [List.lookup]
    · have hne : p.1 ≠ r.1 := by
        intro he
        exact hr (he ▸ List.mem_map_of_mem Prod.fst hp')
      show (((r.1, f r) :: rest.map (fun p => (p.1, f p))).lookup p.1) = _
      simp only [List.lookup, beq_false_of_ne hne]
      exact ih p (List.nodup_cons.mp (by simpa using hnd)).2 hp'

/-- C7: after `applyFilters`, a letter heading is visible iff some card in
its group is visible, and an alphabet-nav link is disabled iff its target
heading is hidden. -/
theorem heading_nav_spec (ac : String) (raw : Str) (page : List (Char × List Card))
    (hnd : (page.map Prod.fst).Nodup) :
    headingStates (renderFlat ac (normQuery raw) page)
      = page.map (fun p => (p.1, p.2.any (cardShow ac (normQuery raw))))
    ∧ (∀ p ∈ page,
        ((headingStates (renderFlat ac (normQuery raw) page)).lookup p.1 = some true
          ↔ ∃ c ∈ p.2, cardShow ac (normQuery raw) c = true))
    ∧ (∀ p ∈ page,
        (navDisabled (headingStates (renderFlat ac (normQuery raw) page)) p.1 = true
          ↔ ¬ ∃ c ∈ p.2, cardShow ac (normQuery raw) c = true)) := by
  have hh := headingStates_renderFlat ac (normQuery raw) page
  have hlk : ∀ p ∈ page,
      (headingStates (renderFlat ac (normQuery raw) page)).lookup p.1
        = some (p.2.any (cardShow ac (normQuery raw))) := by
    intro p hp
    rw [hh]
    exact lookup_map_pairs _ page p hnd hp
  refine ⟨hh, ?_, ?_⟩
  · intro p hp
    rw [hlk p hp]
    rw [Option.some_inj, List.any_eq_true]
  · intro p hp
    unfold navDisabled
    rw [hlk p hp]
    show (!p.2.any (cardShow ac (normQuery raw))) = true ↔ _
    rw [Bool.not_eq_true', ← Bool.not_eq_true, List.any_eq_true]

/-!
## Detail-page resolver (`js/technique.js`)

The page reads `id` and `type` from the query string, dispatches on `type`
(`noise-scaling`, `noise`, `extrapolation`, `noise-learning`, default =
technique), resolves the id within the selected collection, and renders.
Network `fetch` results are inputs here, modelled as `Except` values: an
`error` is a rejected promise (network/parse failure, or the explicit
`throw new Error("Detail file not found")` on a non-ok response inside the
same `Promise.all`).  The HTML body of a successful render is elided; the
outcome records which branch ran and the exact inline message produced by
the error branches.
-/

/-- A technique record of `data/techniques.json`: the fields the resolver
reads. -/
structure Technique where
  id : Str
  name : Str
  abbreviation : Option Str
  aliases : List Str
deriving DecidableEq

/-- A record of one of the method collections (`noise-scaling.json`,
`noise.json`, `extrapolation.json`, `noise-learning.json`): only `id` is
read by the resolver. -/
structure MethodRec where
  id : Str
deriving DecidableEq

/-- `id.toLowerCase().replace(/[-_]/g, " ")`. -/
def normalizeIdQuery (id : Str) : Str :=
  (lowerStr id).map (fun c => if c == '-' || c == '_' then ' ' else c)

/-- The fuzzy-match predicate of `technique.js` lines 47-51. -/
def fuzzyMatches (q : Str) (t : Technique) : Bool :=
  (match t.abbreviation with
   | some ab => lowerStr ab == q
   | none => false)
  || t.aliases.any (fun a => lowerStr a == q)
  || lowerStr t.name == q

/-- The record kinds selectable by the `type` query parameter. -/
inductive Kind where
  | technique
  | scaling
  | noise
  | extrapolation
  | learning
deriving DecidableEq

/-- Dispatch on the `type` query parameter (`technique.js` lines 17-38);
anything else falls through to the default technique flow. -/
def pageKind : Option String → Kind
  | some "noise-scaling" => Kind.scaling
  | some "noise" => Kind.noise
  | some "extrapolation" => Kind.extrapolation
  | some "noise-learning" => Kind.learning
  | _ => Kind.technique

/-- What the detail page leaves in `#detail-content`. -/
inductive Outcome where
  | noId (html : Str)
  | loadError (html : Str)
  | notFound (html : Str)
  | redirect (url : Str)
  | rendered (k : Kind) (recordId : Str)
deriving DecidableEq

def noIdHtml : Str :=
  "<p class=\"error-msg\">No technique specified. Return to the <a href=\"index.html\">catalog</a>.</p>".toList

def techNotFoundHtml : Str :=
  "<p class=\"error-msg\">Technique not found. Return to the <a href=\"index.html\">catalog</a>.</p>".toList

def methodNotFoundHtml : Str :=
  "<p class=\"error-msg\">Method not found. Return to the <a href=\"techniques.html\">techniques</a> page.</p>".toList

def noiseNotFoundHtml : Str :=
  "<p class=\"error-msg\">Noise type not found. Return to the <a href=\"noise.html\">noise</a> page.</p>".toList

def techLoadErrorHtml (e : Str) : Str :=
  "<p class=\"error-msg\">Error loading technique: ".toList ++ e
    ++ ". Return to the <a href=\"index.html\">catalog</a>.</p>".toList

def scalingLoadErrorHtml (e : Str) : Str :=
  "<p class=\"error-msg\">Error loading technique: ".toList ++ e
    ++ ". Return to the <a href=\"techniques.html\">techniques</a> page.</p>".toList

def noiseLoadErrorHtml (e : Str) : Str :=
  "<p class=\"error-msg\">Error loading noise type: ".toList ++ e
    ++ ". Return to the <a href=\"noise.html\">noise</a> page.</p>".toList

def extrapLoadErrorHtml (e : Str) : Str :=
  "<p class=\"error-msg\">Error loading extrapolation method: ".toList ++ e
    ++ ". Return to the <a href=\"techniques.html\">techniques</a> page.</p>".toList

def learningLoadErrorHtml (e : Str) : Str :=
  "<p class=\"error-msg\">Error loading noise learning method: ".toList ++ e
    ++ ". Return to the <a href=\"techniques.html\">techniques</a> page.</p>".toList

/-- Default (technique) flow, `technique.js` lines 40-214: fetch the
technique collection; find the id; on a miss try the fuzzy match and
redirect to the canonical URL; otherwise render "not found".  Only after a
direct match are references and the per-id detail document fetched
(jointly); a failure there lands in the catch. -/
def runDefault (id : Str) (techFetch : Except Str (List Technique))
    (refsDetailFetch : Except Str Unit) : Outcome :=
  match techFetch with
  | .error e => Outcome.loadError (techLoadErrorHtml e)
  | .ok techniques =>
    match techniques.find? (fun t => t.id == id) with
    | some _ =>
      match refsDetailFetch with
      | .error e => Outcome.loadError (techLoadErrorHtml e)
      | .ok _ => Outcome.rendered Kind.technique id
    | none =>
      match techniques.find? (fuzzyMatches (normalizeIdQuery id)) with
      | some t => Outcome.redirect ("technique.html?id=".toList ++ t.id)
      | none => Outcome.notFound techNotFoundHtml

/-- `renderNoiseScalingDetail`, lines 218-353: methods, references and the
per-id detail document are fetched in one `Promise.all` before the id is
looked up, so a failed detail fetch reaches the catch, not the not-found
branch. -/
def runScaling (id : Str) (jointFetch : Except Str (List MethodRec)) : Outcome :=
  match jointFetch with
  | .error e => Outcome.loadError (scalingLoadErrorHtml e)
  | .ok methods =>
    match methods.find? (fun m => m.id == id) with
    | none => Outcome.notFound methodNotFoundHtml
    | some _ => Outcome.rendered Kind.scaling id

/-- `renderNoiseDetail`, lines 356-512: same joint-fetch shape as the
noise-scaling flow. -/
def runNoise (id : Str) (jointFetch : Except Str (List MethodRec)) : Outcome :=
  match jointFetch with
  | .error e => Outcome.loadError (noiseLoadErrorHtml e)
  | .ok noiseTypes =>
    match noiseTypes.find? (fun n => n.id == id) with
    | none => Outcome.notFound noiseNotFoundHtml
    | some _ => Outcome.rendered Kind.noise id

/-- `renderExtrapolationDetail`, lines 515-637: the detail document is
fetched in its own `try` after the id lookup and is optional; its failure
never affects the outcome. -/
def runExtrapolation (id : Str) (jointFetch : Except Str (List MethodRec))
    (_detailFetch : Except Str Unit) : Outcome :=
  match jointFetch with
  | .error e => Outcome.loadError (extrapLoadErrorHtml e)
  | .ok methods =>
    match methods.find? (fun m => m.id == id) with
    | none => Outcome.notFound methodNotFoundHtml
    | some _ => Outcome.rendered Kind.extrapolation id

/-- `renderNoiseLearningDetail`, lines 640-784: same shape as the
extrapolation flow. -/
def runLearning (id : Str) (jointFetch : Except Str (List MethodRec))
    (_detailFetch : Except Str Unit) : Outcome :=
  match jointFetch with
  | .error e => Outcome.loadError (learningLoadErrorHtml e)
  | .ok methods =>
    match methods.find? (fun m => m.id == id) with
    | none => Outcome.notFound methodNotFoundHtml
    | some _ => Outcome.rendered Kind.learning id

/-- The whole detail page: missing id check, then dispatch on `type`. -/
def runDetailPage (idParam : Option Str) (ty : Option String)
    (techFetch : Except Str (List Technique)) (refsDetailFetch : Except Str Unit)
    (scalingFetch noiseFetch extrapFetch learnFetch : Except Str (List MethodRec))
    (extrapDetail learnDetail : Except Str Unit) : Outcome :=
  match idParam with
  | none => Outcome.noId noIdHtml
  | some id =>
    match pageKind ty with
    | Kind.scaling => runScaling id scalingFetch
    | Kind.noise => runNoise id noiseFetch
    | Kind.extrapolation => runExtrapolation id extrapFetch extrapDetail
    | Kind.learning => runLearning id learnFetch learnDetail
    | Kind.technique => runDefault id techFetch refsDetailFetch

/-- A listing page's `DOMContentLoaded` handler (`techniques-page.js`
lines 1-28 and onward) has no `try`/`catch`: a rejected fetch terminates
the handler before any rendering, leaving the content area untouched
(`none`); on success the sorted, grouped page data is built. -/
def techniquesPageLoad (fetchRes : Except Str (List Item)) :
    Option (List (Char × List Item)) :=
  match fetchRes with
  | .error _ => none
  | .ok items => groupedOpt (sortItems items)

/-- C4: with no `type` parameter the default (technique) kind is selected;
a direct id match renders in place (given the subsequent fetches succeed),
and an id that only matches an abbreviation, alias or full name
case/punctuation-insensitively triggers a client-side redirect to the
canonical id URL instead of rendering. -/
theorem runDefault_ok (id : Str) (techniques : List Technique) (rd : Except Str Unit) :
    runDefault id (Except.ok techniques) rd
      = match techniques.find? (fun t => t.id == id) with
        | some _ =>
          match rd with
          | Except.error e => Outcome.loadError (techLoadErrorHtml e)
          | Except.ok _ => Outcome.rendered Kind.technique id
        | none =>
          match techniques.find? (fuzzyMatches (normalizeIdQuery id)) with
          | some t => Outcome.redirect ("technique.html?id=".toList ++ t.id)
          | none => Outcome.notFound techNotFoundHtml := rfl

theorem detail_default_resolution :
    pageKind none = Kind.technique
    ∧ (∀ (id : Str) (techniques : List Technique)
        (sf nf ef lf : Except Str (List MethodRec)) (ed ld : Except Str Unit),
        (∃ t ∈ techniques, t.id = id) →
        runDetailPage (some id) none (Except.ok techniques) (Except.ok ()) sf nf ef lf ed ld
          = Outcome.rendered Kind.technique id)
    ∧ (∀ (id : Str) (techniques : List Technique) (rd : Except Str Unit)
        (sf nf ef lf : Except Str (List MethodRec)) (ed ld : Except Str Unit),
        (∀ t ∈ techniques, t.id ≠ id) →
        (∃ t ∈ techniques, fuzzyMatches (normalizeIdQuery id) t = true) →
        ∃ t, t ∈ techniques ∧ fuzzyMatches (normalizeIdQuery id) t = true
          ∧ runDetailPage (some id) none (Except.ok techniques) rd sf nf ef lf ed ld
              = Outcome.redirect ("technique.html?id=".toList ++ t.id)) := by
  refine ⟨rfl, ?_, ?_⟩
  · intro id techniques sf nf ef lf ed ld hex
    have hsome : (techniques.find? (fun t => t.id == id)).isSome := by
      rw [List.find?_isSome]
      rcases hex with ⟨t, ht, hid⟩
      exact ⟨t, ht, by rw [beq_iff_eq]; exact hid⟩
    rcases Option.isSome_iff_exists.mp hsome with ⟨t, hfind⟩
    show runDefault id (Except.ok techniques) (Except.ok ()) = _
    rw [runDefault_ok, hfind]
  · intro id techniques rd sf nf ef lf ed ld hnone hex
    have hfn : techniques.find? (fun t => t.id == id) = none := by
      rw [List.find?_eq_none]
      intro t ht hbeq
      exact hnone t ht (by rwa [beq_iff_eq] at hbeq)
    have hsome : (techniques.find? (fuzzyMatches (normalizeIdQuery id))).isSome := by
      rw [List.find?_isSome]
      rcases hex with ⟨t, ht, hf⟩
      exact ⟨t, ht, hf⟩
    rcases Option.isSome_iff_exists.mp hsome with ⟨t, hfind⟩
    refine ⟨t, List.mem_of_find?_eq_some hfind, List.find?_some hfind, ?_⟩
    show runDefault id (Except.ok techniques) rd = _
    rw [runDefault_ok, hfn, hfind]

/-- A demonstration technique record for the resolution witnesses. -/
def demoTech : Technique :=
  { id := "zne".toList
    name := "Zero-Noise Extrapolation".toList
    abbreviation := some ("ZNE".toList)
    aliases := ["zero noise extrapolation".toList] }

theorem detail_default_resolution_witness :
    (∃ t ∈ [demoTech], t.id = "zne".toList)
    ∧ (∀ t ∈ [demoTech], t.id ≠ "ZNE".toList)
    ∧ (∃ t ∈ [demoTech], fuzzyMatches (normalizeIdQuery ("ZNE".toList)) t = true)
    ∧ runDetailPage (some ("zne".toList)) none (Except.ok [demoTech]) (Except.ok ())
        (Except.ok []) (Except.ok []) (Except.ok []) (Except.ok [])
        (Except.ok ()) (Except.ok ())
        = Outcome.rendered Kind.technique ("zne".toList)
    ∧ (∃ t, t ∈ [demoTech]
        ∧ fuzzyMatches (normalizeIdQuery ("ZNE".toList)) t = true
        ∧ runDetailPage (some ("ZNE".toList)) none (Except.ok [demoTech]) (Except.ok ())
            (Except.ok []) (Except.ok []) (Except.ok []) (Except.ok [])
            (Except.ok ()) (Except.ok ())
            = Outcome.redirect ("technique.html?id=".toList ++ t.id)) := by
  refine ⟨by decide, by decide, by decide, ?_, ?_⟩
  · exact detail_default_resolution.2.1 ("zne".toList) [demoTech]
      (Except.ok []) (Except.ok []) (Except.ok []) (Except.ok [])
      (Except.ok ()) (Except.ok ()) (by decide)
  · exact detail_default_resolution.2.2 ("ZNE".toList) [demoTech] (Except.ok ())
      (Except.ok []) (Except.ok []) (Except.ok []) (Except.ok [])
      (Except.ok ()) (Except.ok ()) (by decide) (by decide)

/-- C5 counterexample: for the noise-scaling kind, the per-id detail
document is part of the joint fetch that precedes the id lookup, so an
unknown id whose detail file is missing produces the generic load-error
message, not the not-found message. -/
theorem detail_not_found_counterexample :
    runScaling ("ghost".toList) (Except.error ("Detail file not found".toList))
      = Outcome.loadError (scalingLoadErrorHtml ("Detail file not found".toList))
    ∧ runScaling ("ghost".toList) (Except.error ("Detail file not found".toList))
      ≠ Outcome.notFound methodNotFoundHtml := by
  refine ⟨rfl, ?_⟩
  intro h
  rw [show runScaling ("ghost".toList) (Except.error ("Detail file not found".toList))
      = Outcome.loadError (scalingLoadErrorHtml ("Detail file not found".toList)) from rfl] at h
  exact Outcome.noConfusion h

theorem ne_template (nf pre suf : Str) (hlen : 30 ≤ pre.length)
    (hne : nf.take 30 ≠ pre.take 30) : ∀ e : Str, nf ≠ (pre ++ e) ++ suf := by
  intro e he
  apply hne
  rw [he, List.take_append_eq_append_take]
  have h1 : 30 - (pre ++ e).length = 0 := by
    have h2 : pre.length ≤ (pre ++ e).length := by simp
    omega
  rw [h1, List.take_zero, List.append_nil, List.take_append_eq_append_take]
  have h2 : 30 - pre.length = 0 := by omega
  rw [h2, List.take_zero, List.append_nil]

/-- C5 amended: an unmatched id renders the kind's not-found message
unconditionally for the default, extrapolation and noise-learning kinds,
and — for the noise-scaling and noise kinds — whenever the joint fetch
(which includes the per-id detail document) succeeds; each not-found
message differs from every load-error message and links back to the
parent listing. -/
theorem detail_not_found_amended :
    (∀ (id : Str) (techniques : List Technique) (rd : Except Str Unit),
        (∀ t ∈ techniques, t.id ≠ id) →
        (∀ t ∈ techniques, fuzzyMatches (normalizeIdQuery id) t = false) →
        runDefault id (Except.ok techniques) rd = Outcome.notFound techNotFoundHtml)
    ∧ (∀ (id : Str) (methods : List MethodRec), (∀ m ∈ methods, m.id ≠ id) →
        runScaling id (Except.ok methods) = Outcome.notFound methodNotFoundHtml)
    ∧ (∀ (id : Str) (noiseTypes : List MethodRec), (∀ m ∈ noiseTypes, m.id ≠ id) →
        runNoise id (Except.ok noiseTypes) = Outcome.notFound noiseNotFoundHtml)
    ∧ (∀ (id : Str) (methods : List MethodRec) (df : Except Str Unit),
        (∀ m ∈ methods, m.id ≠ id) →
        runExtrapolation id (Except.ok methods) df = Outcome.notFound methodNotFoundHtml)
    ∧ (∀ (id : Str) (methods : List MethodRec) (df : Except Str Unit),
        (∀ m ∈ methods, m.id ≠ id) →
        runLearning id (Except.ok methods) df = Outcome.notFound methodNotFoundHtml)
    ∧ (∀ e : Str, techNotFoundHtml ≠ techLoadErrorHtml e
        ∧ methodNotFoundHtml ≠ scalingLoadErrorHtml e
        ∧ noiseNotFoundHtml ≠ noiseLoadErrorHtml e
        ∧ methodNotFoundHtml ≠ extrapLoadErrorHtml e
        ∧ methodNotFoundHtml ≠ learningLoadErrorHtml e)
    ∧ (∃ l r, techNotFoundHtml = l ++ "href=\"index.html\"".toList ++ r)
    ∧ (∃ l r, methodNotFoundHtml = l ++ "href=\"techniques.html\"".toList ++ r)
    ∧ (∃ l r, noiseNotFoundHtml = l ++ "href=\"noise.html\"".toList ++ r) := by
  have hfind : ∀ (ms : List MethodRec) (id : Str), (∀ m ∈ ms, m.id ≠ id) →
      ms.find? (fun m => m.id == id) = none := by
    intro ms id h
    rw [List.find?_eq_none]
    intro m hm hbeq
    exact h m hm (by rwa [beq_iff_eq] at hbeq)
  refine ⟨?_, ?_, ?_, ?_, ?_, ?_, ?_, ?_, ?_⟩
  · intro id techniques rd h1 h2
    have hfn : techniques.find? (fun t => t.id == id) = none := by
      rw [List.find?_eq_none]
      intro t ht hbeq
      exact h1 t ht (by rwa [beq_iff_eq] at hbeq)
    have hfz : techniques.find? (fuzzyMatches (normalizeIdQuery id)) = none := by
      rw [List.find?_eq_none]
      intro t ht hbeq
      rw [h2 t ht] at hbeq
      exact Bool.false_ne_true hbeq
    rw [runDefault_ok, hfn, hfz]
  · intro id methods h
    show (match methods.find? (fun m => m.id == id) with
      | none => Outcome.notFound methodNotFoundHtml
      | some _ => Outcome.rendered Kind.scaling id) = _
    rw [hfind methods id h]
  · intro id noiseTypes h
    show (match noiseTypes.find? (fun m => m.id == id) with
      | none => Outcome.notFound noiseNotFoundHtml
      | some _ => Outcome.rendered Kind.noise id) = _
    rw [hfind noiseTypes id h]
  · intro id methods df h
    show (match methods.find? (fun m => m.id == id) with
      | none => Outcome.notFound methodNotFoundHtml
      | some _ => Outcome.rendered Kind.extrapolation id) = _
    rw [hfind methods id h]
  · intro id methods df h
    show (match methods.find? (fun m => m.id == id) with
      | none => Outcome.notFound methodNotFoundHtml
      | some _ => Outcome.rendered Kind.learning id) = _
    rw [hfind methods id h]
  · intro e
    refine ⟨?_, ?_, ?_, ?_, ?_⟩
    · exact ne_template _ _ _ (by decide) (by decide) e
    · exact ne_template _ _ _ (by decide) (by decide) e
    · exact ne_template _ _ _ (by decide) (by decide) e
    · exact ne_template _ _ _ (by decide) (by decide) e
    · exact ne_template _ _ _ (by decide) (by decide) e
  · exact ⟨"<p class=\"error-msg\">Technique not found. Return to the <a ".toList,
      ">catalog</a>.</p>".toList, by decide⟩
  · exact ⟨"<p class=\"error-msg\">Method not found. Return to the <a ".toList,
      ">techniques</a> page.</p>".toList, by decide⟩
  · exact ⟨"<p class=\"error-msg\">Noise type not found. Return to the <a ".toList,
      ">noise</a> page.</p>".toList, by decide⟩

theorem detail_not_found_amended_witness :
    (∀ t ∈ ([] : List Technique), t.id ≠ "ghost".toList)
    ∧ (∀ t ∈ ([] : List Technique),
        fuzzyMatches (normalizeIdQuery ("ghost".toList)) t = false)
    ∧ (∀ m ∈ [MethodRec.mk ("unitary-folding".toList)], m.id ≠ "ghost".toList)
    ∧ runDefault ("ghost".toList) (Except.ok []) (Except.ok ())
        = Outcome.notFound techNotFoundHtml
    ∧ runScaling ("ghost".toList) (Except.ok [MethodRec.mk ("unitary-folding".toList)])
        = Outcome.notFound methodNotFoundHtml
    ∧ runNoise ("ghost".toList) (Except.ok [MethodRec.mk ("unitary-folding".toList)])
        = Outcome.notFound noiseNotFoundHtml
    ∧ runExtrapolation ("ghost".toList)
        (Except.ok [MethodRec.mk ("unitary-folding".toList)])
        (Except.error ("not found".toList))
        = Outcome.notFound methodNotFoundHtml
    ∧ runLearning ("ghost".toList)
        (Except.ok [MethodRec.mk ("unitary-folding".toList)])
        (Except.error ("not found".toList))
        = Outcome.notFound methodNotFoundHtml := by
  refine ⟨by decide, by decide, by decide, ?_, ?_, ?_, ?_, ?_⟩
  · exact detail_not_found_amended.1 ("ghost".toList) [] (Except.ok ())
      (by decide) (by decide)
  · exact detail_not_found_amended.2.1 ("ghost".toList)
      [MethodRec.mk ("unitary-folding".toList)] (by decide)
  · exact detail_not_found_amended.2.2.1 ("ghost".toList)
      [MethodRec.mk ("unitary-folding".toList)] (by decide)
  · exact detail_not_found_amended.2.2.2.1 ("ghost".toList)
      [MethodRec.mk ("unitary-folding".toList)] (Except.error ("not found".toList))
      (by decide)
  · exact detail_not_found_amended.2.2.2.2.1 ("ghost".toList)
      [MethodRec.mk ("unitary-folding".toList)] (Except.error ("not found".toList))
      (by decide)

/-- C8 counterexample: on the techniques listing page the
`DOMContentLoaded` handler has no catch, so a failed data fetch aborts
rendering with no inline error message — the content area is not replaced. -/
theorem load_error_counterexample :
    techniquesPageLoad (Except.error ("Failed to fetch".toList)) = none
    ∧ ∀ g, techniquesPageLoad (Except.error ("Failed to fetch".toList)) ≠ some g := by
  refine ⟨rfl, ?_⟩
  intro g h
  exact Option.noConfusion h

/-- C8 amended: on the detail pages a failed required fetch is surfaced as
an inline error message that replaces the content area, names the
underlying failure text and links back to the parent listing; on the
listing pages the handler has no catch, so the failure aborts rendering
with no inline message.  Failures are values of the per-page load
function, never a crash of the embedding, matching the scoped-per-page
behaviour. -/
theorem load_error_reporting_amended :
    (∀ (id e : Str) (rd : Except Str Unit),
        runDefault id (Except.error e) rd = Outcome.loadError (techLoadErrorHtml e))
    ∧ (∀ id e : Str,
        runScaling id (Except.error e) = Outcome.loadError (scalingLoadErrorHtml e))
    ∧ (∀ id e : Str,
        runNoise id (Except.error e) = Outcome.loadError (noiseLoadErrorHtml e))
    ∧ (∀ (id e : Str) (df : Except Str Unit),
        runExtrapolation id (Except.error e) df
          = Outcome.loadError (extrapLoadErrorHtml e))
    ∧ (∀ (id e : Str) (df : Except Str Unit),
        runLearning id (Except.error e) df
          = Outcome.loadError (learningLoadErrorHtml e))
    ∧ (∀ e : Str, ∃ l r, techLoadErrorHtml e = l ++ e ++ r)
    ∧ (∀ e : Str, ∃ l r,
        techLoadErrorHtml e = l ++ "href=\"index.html\"".toList ++ r)
    ∧ (∀ e : Str, ∃ l r, scalingLoadErrorHtml e = l ++ e ++ r)
    ∧ (∀ e : Str, ∃ l r,
        scalingLoadErrorHtml e = l ++ "href=\"techniques.html\"".toList ++ r)
    ∧ (∀ e : Str, techniquesPageLoad (Except.error e) = none) := by
  refine ⟨fun _ _ _ => rfl, fun _ _ => rfl, fun _ _ => rfl, fun _ _ _ => rfl,
    fun _ _ _ => rfl, ?_, ?_, ?_, ?_, fun _ => rfl⟩
  · intro e
    exact ⟨"<p class=\"error-msg\">Error loading technique: ".toList,
      ". Return to the <a href=\"index.html\">catalog</a>.</p>".toList, rfl⟩
  · intro e
    refine ⟨"<p class=\"error-msg\">Error loading technique: ".toList ++ e
        ++ ". Return to the <a ".toList, ">catalog</a>.</p>".toList, ?_⟩
    have hsplit : ". Return to the <a href=\"index.html\">catalog</a>.</p>".toList
        = ". Return to the <a ".toList ++ "href=\"index.html\"".toList
          ++ ">catalog</a>.</p>".toList := by decide
    unfold techLoadErrorHtml
    rw [hsplit]
    simp [List.append_assoc]
  · intro e
    exact ⟨"<p class=\"error-msg\">Error loading technique: ".toList,
      ". Return to the <a href=\"techniques.html\">techniques</a> page.</p>".toList, rfl⟩
  · intro e
    refine ⟨"<p class=\"error-msg\">Error loading technique: ".toList ++ e
        ++ ". Return to the <a ".toList, ">techniques</a> page.</p>".toList, ?_⟩
    have hsplit : ". Return to the <a href=\"techniques.html\">techniques</a> page.</p>".toList
        = ". Return to the <a ".toList ++ "href=\"techniques.html\"".toList
          ++ ">techniques</a> page.</p>".toList := by decide
    unfold scalingLoadErrorHtml
    rw [hsplit]
    simp [List.append_assoc]

/-!
## The end-to-end scenario of the spec (section 8)
-/

def zneItem : Item :=
  { name := "Zero-Noise Extrapolation".toList
    category := "mitigation"
    references := ["a", "b"] }

def pecItem : Item :=
  { name := "Probabilistic Error Cancellation".toList
    category := "mitigation"
    references := ["b", "c"] }

/-- The card rendered for an item, as the filter pass sees it: the
`data-category` attribute and its text content (the name suffices here —
the scenario's query is empty, so the text is never inspected). -/
def cardOfItem (t : Item) : Card := { category := t.category, text := t.name }

/-- C6 counterexample: the page pipeline sorts before indexing, and
"Probabilistic Error Cancellation" sorts before "Zero-Noise
Extrapolation", so key `a` is numbered 3, not 1 as the spec's scenario
claims. -/
theorem scenario_counterexample :
    (citationMap (sortItems [zneItem, pecItem])).lookup "a" = some 3
    ∧ (citationMap (sortItems [zneItem, pecItem])).lookup "a" ≠ some 1 := by
  constructor
  · decide
  · decide

/-- C6 amended: the pipeline on the two-item scenario list yields the
citation order `[b, c, a]` and map `{b: 1, c: 2, a: 3}`; filtering the two
mitigation-only cards with active category "suppression" shows zero cards
and displays the no-results indicator. -/
theorem scenario_amended :
    citationOrder (sortItems [zneItem, pecItem]) = ["b", "c", "a"]
    ∧ citationMap (sortItems [zneItem, pecItem]) = [("b", 1), ("c", 2), ("a", 3)]
    ∧ applyFiltersCards "suppression" [] [cardOfItem zneItem, cardOfItem pecItem]
        = ([false, false], 0)
    ∧ noResultsShown (applyFiltersCards "suppression" []
        [cardOfItem zneItem, cardOfItem pecItem]).2 = true := by
  refine ⟨by decide, by decide, by decide, by decide⟩

/-!
## Concrete witnesses
-/

def demoItems : List Item :=
  [ { name := "Alpha Method".toList, category := "mitigation", references := ["x", "y"] }
  , { name := "Beta Method".toList, category := "suppression", references := ["y", "z"] } ]

theorem citation_indexer_spec_witness :
    (citationOrder demoItems).Nodup
    ∧ (∀ k, k ∈ citationOrder demoItems ↔ k ∈ refKeys demoItems)
    ∧ (citationOrder demoItems).Pairwise (firstBefore (refKeys demoItems))
    ∧ (∀ k, k ∈ citationOrder demoItems →
        (citationMap demoItems).lookup k = some ((citationOrder demoItems).indexOf k + 1))
    ∧ (∀ k n, (citationMap demoItems).lookup k = some n →
        1 ≤ n ∧ n ≤ (citationOrder demoItems).length)
    ∧ (∀ n, 1 ≤ n → n ≤ (citationOrder demoItems).length →
        ∃ k, k ∈ citationOrder demoItems ∧ (citationMap demoItems).lookup k = some n) :=
  citation_indexer_spec demoItems

theorem citation_indexer_deterministic_witness :
    demoItems = demoItems
    ∧ (citationOrder demoItems = citationOrder demoItems
        ∧ citationMap demoItems = citationMap demoItems) :=
  ⟨rfl, citation_indexer_deterministic demoItems demoItems rfl⟩

/-- The grouping scenario of spec section 8. -/
def demoPair : List Item :=
  [ { name := "Zeno Effect".toList, category := "suppression", references := [] }
  , { name := "Amplitude Damping".toList, category := "incoherent", references := [] } ]

theorem grouping_partition_witness :
    (∀ t ∈ demoPair, t.name ≠ [])
    ∧ (groupedOpt (sortItems demoPair) = some (groupList (sortItems demoPair))
      ∧ ((groupList (sortItems demoPair)).map Prod.fst).Pairwise (· < ·)
      ∧ (∀ p ∈ groupList (sortItems demoPair), ∀ t ∈ p.2, letterKeyD t = p.1)
      ∧ ((groupList (sortItems demoPair)).map Prod.snd).flatten = sortItems demoPair
      ∧ (∀ t ∈ sortItems demoPair, ∃ p, p ∈ groupList (sortItems demoPair) ∧ t ∈ p.2
          ∧ ∀ q ∈ groupList (sortItems demoPair), t ∈ q.2 → q = p)
      ∧ renderConcat (groupList (sortItems demoPair)) = sortItems demoPair) :=
  ⟨by decide, grouping_partition demoPair (by decide)⟩

theorem grouping_total_iff_witness :
    (groupedOpt demoPair).isSome = true ↔ ∀ t ∈ demoPair, t.name ≠ [] :=
  grouping_total_iff demoPair

def demoCards : List Card :=
  [ { category := "mitigation", text := "Zero-Noise Extrapolation mitigation".toList }
  , { category := "suppression", text := "Dynamical Decoupling suppression".toList } ]

theorem filter_controller_spec_witness :
    (applyFiltersCards "all" (" Zero ".toList) demoCards).1
        = demoCards.map (cardShow "all" (normQuery (" Zero ".toList)))
    ∧ (applyFiltersCards "all" (" Zero ".toList) demoCards).2
        = (demoCards.filter
            (fun c => cardShow "all" (normQuery (" Zero ".toList)) c)).length
    ∧ (∀ c ∈ demoCards, cardShow "all" (normQuery (" Zero ".toList)) c = true ↔
        (("all" = "all" ∨ c.category = "all")
          ∧ (normQuery (" Zero ".toList) = []
              ∨ ∃ l r, lowerStr c.text = l ++ normQuery (" Zero ".toList) ++ r))) :=
  filter_controller_spec "all" (" Zero ".toList) demoCards

def demoPage : List (Char × List Card) :=
  [ ('D', [{ category := "suppression", text := "Dynamical Decoupling".toList }])
  , ('Z', [{ category := "mitigation", text := "Zero-Noise Extrapolation".toList }]) ]

theorem heading_nav_spec_witness :
    ((demoPage.map Prod.fst).Nodup)
    ∧ (headingStates (renderFlat "mitigation" (normQuery []) demoPage)
        = demoPage.map (fun p => (p.1, p.2.any (cardShow "mitigation" (normQuery []))))
      ∧ (∀ p ∈ demoPage,
          ((headingStates (renderFlat "mitigation" (normQuery []) demoPage)).lookup p.1
              = some true
            ↔ ∃ c ∈ p.2, cardShow "mitigation" (normQuery []) c = true))
      ∧ (∀ p ∈ demoPage,
          (navDisabled (headingStates
              (renderFlat "mitigation" (normQuery []) demoPage)) p.1 = true
            ↔ ¬ ∃ c ∈ p.2, cardShow "mitigation" (normQuery []) c = true))) :=
  ⟨by decide, heading_nav_spec "mitigation" [] demoPage (by decide)⟩

theorem load_error_reporting_amended_witness :
    runScaling ("zne".toList) (Except.error ("HTTP 500".toList))
      = Outcome.loadError (scalingLoadErrorHtml ("HTTP 500".toList))
    ∧ techniquesPageLoad (Except.error ("HTTP 500".toList)) = none :=
  ⟨load_error_reporting_amended.2.1 ("zne".toList) ("HTTP 500".toList),
   load_error_reporting_amended.2.2.2.2.2.2.2.2.2 ("HTTP 500".toList)⟩
